import Mathlib

/-!
Shallow embedding of the banking-system simulation
(`src/operatingsystem.cpp`) and proofs about its core behaviour.

Modelling conventions:
* C++ `float` money amounts are modelled as exact rationals (`Rat`); the
  spec calls them "decimal" amounts, and none of the verified claims is
  about rounding.
* `std::map<int, Account>` is modelled as an association list with
  integer keys (`alookup` mirrors `map::find`, `updEntry` mirrors an
  in-place update through `operator[]` of an existing key).
* Locking (`std::mutex`) is dropped: every embedded operation is the
  body of one critical section, executed atomically, so the sequential
  functional semantics below is exactly the per-operation behaviour of
  the C++ code.  The one exception is
  `MemoryManager::store_data_in_page`, whose at-capacity branch calls
  `replace_page` and thereby re-locks the non-recursive mutex it
  already holds: `store_data_in_page_locked` models that self-deadlock
  faithfully (the call never completes), while `store_data_in_page`
  keeps the as-if-recursive data reading used to exhibit the cache's
  duplicate/FIFO behaviour.
* Logging is dropped: `Logger` only appends text to files and no claim
  depends on it.
-/

namespace Banking

/-- Association-list lookup with integer keys, mirroring
`accounts.find(account_id)` on `std::map<int, ...>`. -/
def alookup {β : Type} : List (Int × β) → Int → Option β
  | [], _ => none
  | p :: rest, k => if p.1 = k then some p.2 else alookup rest k

/-- Update the value stored at key `k` in place (no effect if `k` is
absent), mirroring `m[k] = f(m[k])` on an existing key. -/
def updEntry {β : Type} (l : List (Int × β)) (k : Int) (g : β → β) : List (Int × β) :=
  l.map (fun p => if p.1 = k then (p.1, g p.2) else p)

theorem alookup_updEntry_self {β : Type} (l : List (Int × β)) (k : Int) (g : β → β) :
    alookup (updEntry l k g) k = (alookup l k).map g := by
  induction l with
  | nil => rfl
  | cons p rest ih =>
    by_cases h : p.1 = k
    · simp [updEntry, alookup, h]
    · simp [updEntry, alookup, h] at ih ⊢
      exact ih

theorem alookup_updEntry_ne {β : Type} (l : List (Int × β)) (k k' : Int) (g : β → β)
    (h : k' ≠ k) : alookup (updEntry l k g) k' = alookup l k' := by
  induction l with
  | nil => rfl
  | cons p rest ih =>
    by_cases hp : p.1 = k
    · have hpk' : p.1 ≠ k' := by rw [hp]; exact fun hh => h hh.symm
      simp only [updEntry, List.map_cons, if_pos hp] at ih ⊢
      simp [alookup, hpk', ih]
    · by_cases hp' : p.1 = k'
      · simp [updEntry, alookup, hp, hp', h]
      · simp only [updEntry, List.map_cons, if_neg hp] at ih ⊢
        simp [alookup, hp', ih]

theorem alookup_isSome_updEntry {β : Type} (l : List (Int × β)) (k k' : Int) (g : β → β) :
    (alookup (updEntry l k g) k').isSome = (alookup l k').isSome := by
  by_cases h : k' = k
  · subst h
    rw [alookup_updEntry_self]
    cases alookup l k' <;> rfl
  · rw [alookup_updEntry_ne l k k' g h]

theorem alookup_mem {β : Type} (l : List (Int × β)) (k : Int) (v : β)
    (h : alookup l k = some v) : (k, v) ∈ l := by
  induction l with
  | nil => exact absurd h (by simp [alookup])
  | cons p rest ih =>
    obtain ⟨a, b⟩ := p
    by_cases hp : a = k
    · subst hp
      have hv : b = v := by simpa [alookup] using h
      subst hv
      exact List.mem_cons_self _ _
    · exact List.mem_cons_of_mem _ (ih (by simpa [alookup, hp] using h))

theorem alookup_append_right {β : Type} (l : List (Int × β)) (k : Int) (v : β)
    (h : alookup l k = none) : alookup (l ++ [(k, v)]) k = some v := by
  induction l with
  | nil => simp [alookup]
  | cons p rest ih =>
    by_cases hp : p.1 = k
    · simp [alookup, hp] at h
    · simp [alookup, hp] at h ⊢
      exact ih h

theorem alookup_none_of_keys_lt {β : Type} (l : List (Int × β)) (n : Int)
    (h : ∀ p ∈ l, p.1 < n) : alookup l n = none := by
  induction l with
  | nil => rfl
  | cons p rest ih =>
    have hp : p.1 < n := h p (List.mem_cons_self p rest)
    simp [alookup, ne_of_lt hp]
    exact ih (fun q hq => h q (List.mem_cons_of_mem p hq))

/-! ## Ledger: `AccountManager` -/

/-- Embeds `AccountManager::Account`. -/
structure Account where
  account_id : Int
  customer_id : Int
  balance : Rat
deriving Repr, DecidableEq

/-- The sentinel `{ -1, -1, -1.0f }` returned by `get_account` for an
invalid account id. -/
def sentinelAccount : Account := ⟨-1, -1, -1⟩

/-- The private state of `AccountManager`: the account map and the
`next_account_id` counter (initially 1). -/
structure AMState where
  accounts : List (Int × Account)
  next_account_id : Int
deriving Repr, DecidableEq

def initialAMState : AMState := ⟨[], 1⟩

namespace AccountManager

/-- Embeds `AccountManager::add_account`: allocate `next_account_id`, store the
new account, return its id. -/
def add_account (s : AMState) (customer_id : Int) (initial_balance : Rat) :
    Int × AMState :=
  let account_id := s.next_account_id
  (account_id,
    { accounts := s.accounts ++ [(account_id, ⟨account_id, customer_id, initial_balance⟩)],
      next_account_id := s.next_account_id + 1 })

/-- Embeds `AccountManager::get_account`: the stored account, or the
`{-1, -1, -1.0f}` sentinel when the id is unknown. -/
def get_account (s : AMState) (account_id : Int) : Account :=
  match alookup s.accounts account_id with
  | some a => a
  | none => sentinelAccount

/-- Embeds `AccountManager::deposit`: if the account exists, add `amount` to its
balance (no validation of `amount`) and return `true`; else return
`false` and leave the state unchanged. -/
def deposit (s : AMState) (account_id : Int) (amount : Rat) : Bool × AMState :=
  match alookup s.accounts account_id with
  | some a =>
    let accounts' :=
      updEntry s.accounts account_id (fun b => { b with balance := a.balance + amount })
    (true, { s with accounts := accounts' })
  | none => (false, s)

/-- Embeds `AccountManager::withdraw`: succeeds iff the account exists and
`balance >= amount`; on success subtracts `amount`, otherwise leaves the
state unchanged. -/
def withdraw (s : AMState) (account_id : Int) (amount : Rat) : Bool × AMState :=
  match alookup s.accounts account_id with
  | some a =>
    if amount ≤ a.balance then
      let accounts' :=
        updEntry s.accounts account_id (fun b => { b with balance := a.balance - amount })
      (true, { s with accounts := accounts' })
    else (false, s)
  | none => (false, s)

/-- Embeds `AccountManager::check_balance`: the balance, or `-1.0f` when the
account id is unknown. -/
def check_balance (s : AMState) (account_id : Int) : Rat :=
  match alookup s.accounts account_id with
  | some a => a.balance
  | none => -1

end AccountManager

/-! ## `ErrorHandler` (validation wrapper) -/

namespace ErrorHandler

/-- Embeds `ErrorHandler::validate_account_id`: invalid iff
`get_account(id).account_id == -1`. -/
def validate_account_id (s : AMState) (account_id : Int) : Bool :=
  if (AccountManager.get_account s account_id).account_id = -1 then false else true

/-- Embeds `ErrorHandler::validate_amount`: rejects `amount <= 0`. -/
def validate_amount (amount : Rat) : Bool :=
  if amount ≤ 0 then false else true

end ErrorHandler

/-! ## `SystemCallInterface` (public API) -/

namespace SCI

/-- Embeds `SystemCallInterface::create_account`: rejects a negative initial
balance with the `-1` sentinel id, otherwise delegates to
`AccountManager::add_account`. -/
def create_account (s : AMState) (customer_id : Int) (initial_balance : Rat) :
    Int × AMState :=
  if initial_balance < 0 then (-1, s)
  else AccountManager.add_account s customer_id initial_balance

/-- Embeds `SystemCallInterface::deposit`: checks account validity then amount
positivity (short-circuit, in that order), then delegates. -/
def deposit (s : AMState) (account_id : Int) (amount : Rat) : Bool × AMState :=
  if !(ErrorHandler.validate_account_id s account_id) then (false, s)
  else if !(ErrorHandler.validate_amount amount) then (false, s)
  else AccountManager.deposit s account_id amount

/-- Embeds `SystemCallInterface::withdraw`: same validation, then delegates. -/
def withdraw (s : AMState) (account_id : Int) (amount : Rat) : Bool × AMState :=
  if !(ErrorHandler.validate_account_id s account_id) then (false, s)
  else if !(ErrorHandler.validate_amount amount) then (false, s)
  else AccountManager.withdraw s account_id amount

/-- Embeds `SystemCallInterface::check_balance`: `-1.0f` when validation fails,
else the ledger balance. -/
def check_balance (s : AMState) (account_id : Int) : Rat :=
  if !(ErrorHandler.validate_account_id s account_id) then -1
  else AccountManager.check_balance s account_id

end SCI

/-- One call through the public `SystemCallInterface`. -/
inductive SysOp where
  | createAccount (customer_id : Int) (initial_balance : Rat)
  | depositOp (account_id : Int) (amount : Rat)
  | withdrawOp (account_id : Int) (amount : Rat)

/-- State reached after one public call (the returned value is dropped). -/
def SCI.runOp (s : AMState) : SysOp → AMState
  | .createAccount cid b => (SCI.create_account s cid b).2
  | .depositOp id a => (SCI.deposit s id a).2
  | .withdrawOp id a => (SCI.withdraw s id a).2

/-- State reached from `s` after a sequence of public calls. -/
def SCI.runOps (s : AMState) (ops : List SysOp) : AMState :=
  ops.foldl SCI.runOp s

/-! ## Direct ledger operation sequences on one account (for the
balance-sum property) -/

/-- A deposit or withdraw applied directly to `AccountManager`. -/
inductive LedgerOp where
  | dep (amount : Rat)
  | wd (amount : Rat)

def applyLedgerOp (account_id : Int) (s : AMState) : LedgerOp → Bool × AMState
  | .dep q => AccountManager.deposit s account_id q
  | .wd q => AccountManager.withdraw s account_id q

/-- Run a sequence of deposits/withdrawals against one account; the
boolean records whether every operation in the sequence succeeded. -/
def runLedgerOps (account_id : Int) (s : AMState) : List LedgerOp → Bool × AMState
  | [] => (true, s)
  | op :: rest =>
    let r := applyLedgerOp account_id s op
    let r2 := runLedgerOps account_id r.2 rest
    (r.1 && r2.1, r2.2)

def sumDeposits : List LedgerOp → Rat
  | [] => 0
  | .dep q :: rest => q + sumDeposits rest
  | .wd _ :: rest => sumDeposits rest

def sumWithdrawals : List LedgerOp → Rat
  | [] => 0
  | .dep _ :: rest => sumWithdrawals rest
  | .wd q :: rest => q + sumWithdrawals rest

/-! ## `MemoryManager` (the page cache) -/

/-- Embeds `MemoryManager::Page`. -/
structure Page where
  account_id : Int
  balance : Rat
deriving Repr, DecidableEq

/-- Embeds `MemoryManager` state: `std::list<Page> memory` plus `max_pages`. -/
structure MMState where
  memory : List Page
  max_pages : Nat
deriving Repr, DecidableEq

namespace MemoryManager

/-- Embeds `MemoryManager::replace_page`: `pop_front` then `push_back`. -/
def replace_page (s : MMState) (account_id : Int) (balance : Rat) : MMState :=
  { s with memory := s.memory.tail ++ [⟨account_id, balance⟩] }

/-- Embeds `MemoryManager::store_data_in_page`: at capacity it delegates to
`replace_page`, otherwise appends a fresh page (no lookup of the account
id in either branch).  The at-capacity branch here gives the data
behaviour as if `replace_page`'s re-acquisition of the already-held
mutex succeeded (a recursive-lock reading); the faithful
non-recursive-mutex reading, under which that branch deadlocks and
never completes, is `store_data_in_page_locked` below. -/
def store_data_in_page (s : MMState) (account_id : Int) (balance : Rat) : MMState :=
  if s.memory.length ≥ s.max_pages then replace_page s account_id balance
  else { s with memory := s.memory ++ [⟨account_id, balance⟩] }

/-- Faithful mutex-aware reading of `MemoryManager::store_data_in_page`.
The body holds `mtx` through a `lock_guard` and, at capacity, calls
`replace_page`, whose own `lock_guard` re-acquires the same
non-recursive `std::mutex` and deadlocks before `pop_front` runs — the
call never completes and no eviction is ever observed; that stuck
outcome is `none`.  Below capacity the append completes exactly as in
`store_data_in_page`. -/
def store_data_in_page_locked (s : MMState) (account_id : Int) (balance : Rat) :
    Option MMState :=
  if s.memory.length ≥ s.max_pages then none
  else some { s with memory := s.memory ++ [⟨account_id, balance⟩] }

end MemoryManager

/-- A sequence of `store_data_in_page` calls (touches). -/
def touchAll (s : MMState) (ts : List (Int × Rat)) : MMState :=
  ts.foldl (fun st p => MemoryManager.store_data_in_page st p.1 p.2) s

/-- An empty cache with capacity `c` (`MemoryManager memoryManager(c)`). -/
def initMM (c : Nat) : MMState := ⟨[], c⟩

/-- Sequences touches under the faithful mutex-aware semantics: once a
touch deadlocks (`none`), no later state is ever reached. -/
def touchAllLocked : MMState → List (Int × Rat) → Option MMState
  | s, [] => some s
  | s, t :: rest =>
    match MemoryManager.store_data_in_page_locked s t.1 t.2 with
    | some s' => touchAllLocked s' rest
    | none => none

/-! ## `IPCManager` (notification channel) -/

/-- One interaction with the message queue: `send_message` or a
completed `receive_message`. -/
inductive ChanOp where
  | send (msg : String)
  | recv

/-- The queue contents plus the history of messages returned by
completed receives. -/
structure ChanState where
  queue : List String
  delivered : List String
deriving Repr, DecidableEq

/-- One step of `IPCManager`: `send_message` pushes at the back;
`receive_message` pops the front when the queue is non-empty.  A `recv`
on an empty queue leaves the state unchanged: in blocking mode the call
has not completed yet (`cv.wait` until non-empty), and in non-blocking
mode it returns `""` without dequeuing. -/
def chanStep (s : ChanState) : ChanOp → ChanState
  | .send m => { s with queue := s.queue ++ [m] }
  | .recv =>
    match s.queue with
    | [] => s
    | m :: rest => { queue := rest, delivered := s.delivered ++ [m] }

def chanRun (s : ChanState) (ops : List ChanOp) : ChanState :=
  ops.foldl chanStep s

/-- The messages published by a trace, in publish order. -/
def sentOf : List ChanOp → List String
  | [] => []
  | .send m :: rest => m :: sentOf rest
  | .recv :: rest => sentOf rest

/-! ## `ProcessManager` and `Scheduler` -/

/-- Embeds `ProcessManager::update_process_state`: set the state string of an
existing process-table entry; no effect when the id is absent. -/
def update_process_state (tbl : List (Int × String)) (tid : Int) (st : String) :
    List (Int × String) :=
  if (alookup tbl tid).isSome then updEntry tbl tid (fun _ => st)
  else tbl

/-- The scheduler-relevant state: the ready queue, the process table and
the Gantt chart. -/
structure SchedState where
  ready_queue : List Int
  table : List (Int × String)
  gantt : List (Int × String)
deriving Repr, DecidableEq

/-- The body of `Scheduler::run` once `stop()` has not been called:
repeatedly pop the front of the ready queue, mark the transaction
`"Running"`, simulate execution (a sleep, no ledger interaction), mark
it `"Terminated"`, record a Gantt entry, and continue until the queue is
empty. -/
def schedRunFrom (queue : List Int) (tbl g : List (Int × String)) : SchedState :=
  match queue with
  | [] => ⟨[], tbl, g⟩
  | tid :: rest =>
    schedRunFrom rest
      (update_process_state (update_process_state tbl tid "Running") tid "Terminated")
      (g ++ [(tid, "Running")])

/-- Embeds `Scheduler::run` until the ready queue drains. -/
def schedRun (s : SchedState) : SchedState :=
  schedRunFrom s.ready_queue s.table s.gantt

/-- Invariant of every ledger state reachable through the public
`SystemCallInterface`: ids are at least 1 and below the allocation
counter, each stored record carries its own key as `account_id`, and no
balance is negative. -/
abbrev AMInv (s : AMState) : Prop :=
  1 ≤ s.next_account_id ∧
  ∀ p ∈ s.accounts, p.2.account_id = p.1 ∧ 1 ≤ p.1 ∧ p.1 < s.next_account_id ∧
    0 ≤ p.2.balance

/-! ## Theorems -/

theorem mem_updEntry {β : Type} (l : List (Int × β)) (k : Int) (g : β → β) (p' : Int × β)
    (h : p' ∈ updEntry l k g) :
    ∃ p ∈ l, p' = if p.1 = k then (p.1, g p.2) else p := by
  rw [updEntry, List.mem_map] at h
  obtain ⟨p, hp, hfp⟩ := h
  exact ⟨p, hp, hfp.symm⟩

/-- C2: a withdraw of strictly more than the current balance of an
existing account returns failure (`false`; the C++ code reports this as
the insufficient-funds error path) and returns the ledger state
completely unchanged. -/
theorem withdraw_insufficient_funds_noop (s : AMState) (account_id : Int) (a : Account)
    (amount : Rat) (hpres : alookup s.accounts account_id = some a)
    (hgt : a.balance < amount) :
    AccountManager.withdraw s account_id amount = (false, s) := by
  simp only [AccountManager.withdraw, hpres]
  rw [if_neg (not_le.mpr hgt)]

/-- C2 witness: account 1 holds 1300 and a withdraw of 5000 fails with
no state change. -/
theorem withdraw_insufficient_funds_noop_witness :
    AccountManager.withdraw ⟨[(1, ⟨1, 9, 1300⟩)], 2⟩ 1 5000 =
      (false, ⟨[(1, ⟨1, 9, 1300⟩)], 2⟩) :=
  withdraw_insufficient_funds_noop ⟨[(1, ⟨1, 9, 1300⟩)], 2⟩ 1 ⟨1, 9, 1300⟩ 5000
    (by decide) (by decide)

/-- C3: whenever `AccountManager::withdraw` reports success, the
affected account still exists afterwards and its balance is
non-negative (the success guard `balance >= amount` forces
`balance - amount >= 0`). -/
theorem withdraw_success_balance_nonneg (s s' : AMState) (account_id : Int) (amount : Rat)
    (h : AccountManager.withdraw s account_id amount = (true, s')) :
    ∃ a', alookup s'.accounts account_id = some a' ∧ 0 ≤ a'.balance := by
  simp only [AccountManager.withdraw] at h
  split at h
  · rename_i a hl
    split at h
    · rename_i hle
      injection h with h1 h2
      subst h2
      refine ⟨{ a with balance := a.balance - amount }, ?_, ?_⟩
      · simp only [alookup_updEntry_self, hl]
        rfl
      · simpa using sub_nonneg.mpr hle
    · injection h with h1 h2
      exact absurd h1 (by simp)
  · injection h with h1 h2
    exact absurd h1 (by simp)

/-- C3 witness: withdrawing 200 from account 1 holding 1500 succeeds and
leaves a non-negative balance. -/
theorem withdraw_success_balance_nonneg_witness :
    ∃ a', alookup
        (AccountManager.withdraw ⟨[(1, ⟨1, 9, 1500⟩)], 2⟩ 1 200).2.accounts 1 = some a' ∧
      0 ≤ a'.balance :=
  withdraw_success_balance_nonneg ⟨[(1, ⟨1, 9, 1500⟩)], 2⟩
    (AccountManager.withdraw ⟨[(1, ⟨1, 9, 1500⟩)], 2⟩ 1 200).2 1 200 rfl

/-- C4 (code bug evidence): on the cache of capacity 3, re-touching the
already-cached account 2 does not refresh its entry; the code evicts the
front page (account 1, violating "refresh, no eviction") and appends a
second page for account 2 (violating "no duplicate").  This contradicts
the source's own requirement header ("Use the Least Recently Used (LRU)
algorithm for page replacement"). -/
theorem cache_retouch_evicts_and_duplicates :
    (touchAll (initMM 3) [(1, 10), (2, 20), (3, 30), (2, 25)]).memory =
      [⟨2, 20⟩, ⟨3, 30⟩, ⟨2, 25⟩] := by decide

/-- C6 (code bug evidence): touching account 1 twice in a cache far
below capacity stores two separate pages for account 1:
`store_data_in_page` never looks the account up before appending. -/
theorem cache_double_touch_duplicates :
    (touchAll (initMM 5) [(1, 100), (1, 200)]).memory = [⟨1, 100⟩, ⟨1, 200⟩] ∧
    ((touchAll (initMM 5) [(1, 100), (1, 200)]).memory.filter
      (fun pg => pg.account_id = 1)).length = 2 := by decide

/-- C7 counterexample: the core ledger accepts a non-positive amount.
Depositing `-5` directly into account 1 (balance 1000) succeeds
(`true`, not an `InvalidAmount` failure) and changes the balance
to 995. -/
theorem deposit_negative_amount_succeeds :
    AccountManager.deposit ⟨[(1, ⟨1, 7, 1000⟩)], 2⟩ 1 (-5) =
      (true, ⟨[(1, ⟨1, 7, 995⟩)], 2⟩) := by
  norm_num [AccountManager.deposit, alookup, updEntry, Prod.ext_iff,
    AMState.mk.injEq, Account.mk.injEq]

/-- C7 amended: the core ledger performs no amount validation at all —
`AccountManager::deposit` succeeds on any existing account for every
amount (including amounts ≤ 0) and adds it to the balance; only the
wrapper layer rejects non-positive amounts
(`ErrorHandler::validate_amount` returns `false` for them). -/
theorem deposit_skips_amount_validation (s : AMState) (account_id : Int)
    (amount : Rat) (a : Account) (hpres : alookup s.accounts account_id = some a) :
    (AccountManager.deposit s account_id amount).1 = true ∧
    alookup (AccountManager.deposit s account_id amount).2.accounts account_id =
      some { a with balance := a.balance + amount } ∧
    (amount ≤ 0 → ErrorHandler.validate_amount amount = false) := by
  refine ⟨?_, ?_, ?_⟩
  · simp [AccountManager.deposit, hpres]
  · simp only [AccountManager.deposit, hpres]
    rw [alookup_updEntry_self, hpres]
    rfl
  · intro hle
    simp [ErrorHandler.validate_amount, hle]

theorem deposit_run (s : AMState) (account_id : Int) (q : Rat) (a : Account)
    (hpres : alookup s.accounts account_id = some a) :
    (AccountManager.deposit s account_id q).1 = true ∧
    alookup (AccountManager.deposit s account_id q).2.accounts account_id =
      some { a with balance := a.balance + q } := by
  constructor
  · simp [AccountManager.deposit, hpres]
  · simp only [AccountManager.deposit, hpres]
    rw [alookup_updEntry_self, hpres]
    rfl

theorem withdraw_run_success (s : AMState) (account_id : Int) (q : Rat) (a : Account)
    (hpres : alookup s.accounts account_id = some a) (hle : q ≤ a.balance) :
    (AccountManager.withdraw s account_id q).1 = true ∧
    alookup (AccountManager.withdraw s account_id q).2.accounts account_id =
      some { a with balance := a.balance - q } := by
  constructor
  · simp [AccountManager.withdraw, hpres, hle]
  · simp only [AccountManager.withdraw, hpres, if_pos hle]
    rw [alookup_updEntry_self, hpres]
    rfl

/-- C1: starting from any ledger state holding the account, running any
sequence of deposits and withdrawals against it such that every
operation succeeded (a withdraw succeeds exactly when it has sufficient
funds at application time; a deposit on an existing account always
succeeds) ends with the account's balance equal to the initial balance
plus the sum of deposited amounts minus the sum of withdrawn amounts. -/
theorem ledger_balance_sum (account_id : Int) (ops : List LedgerOp) (s : AMState)
    (a : Account) (hpres : alookup s.accounts account_id = some a)
    (hok : (runLedgerOps account_id s ops).1 = true) :
    ∃ a', alookup (runLedgerOps account_id s ops).2.accounts account_id = some a' ∧
      a'.balance = a.balance + sumDeposits ops - sumWithdrawals ops := by
  induction ops generalizing s a with
  | nil => exact ⟨a, hpres, by simp [runLedgerOps, sumDeposits, sumWithdrawals]⟩
  | cons op rest ih =>
    simp only [runLedgerOps, Bool.and_eq_true] at hok
    obtain ⟨hop, hrest⟩ := hok
    cases op with
    | dep q =>
      have hd := deposit_run s account_id q a hpres
      obtain ⟨a', ha', hbal⟩ := ih (applyLedgerOp account_id s (.dep q)).2
        { a with balance := a.balance + q } (by simpa [applyLedgerOp] using hd.2) hrest
      refine ⟨a', by simpa [runLedgerOps] using ha', ?_⟩
      rw [hbal]
      simp only [sumDeposits, sumWithdrawals]
      ring
    | wd q =>
      have hguard : q ≤ a.balance := by
        by_contra hgt
        simp [applyLedgerOp, AccountManager.withdraw, hpres, hgt] at hop
      have hw := withdraw_run_success s account_id q a hpres hguard
      obtain ⟨a', ha', hbal⟩ := ih (applyLedgerOp account_id s (.wd q)).2
        { a with balance := a.balance - q } (by simpa [applyLedgerOp] using hw.2) hrest
      refine ⟨a', by simpa [runLedgerOps] using ha', ?_⟩
      rw [hbal]
      simp only [sumDeposits, sumWithdrawals]
      ring

/-- C1 witness: account 1 starts at 100; depositing 50 then withdrawing
30 (both succeeding) ends at 100 + 50 − 30. -/
theorem ledger_balance_sum_witness :
    ∃ a', alookup (runLedgerOps 1 ⟨[(1, ⟨1, 7, 100⟩)], 2⟩
        [LedgerOp.dep 50, LedgerOp.wd 30]).2.accounts 1 = some a' ∧
      a'.balance = (⟨1, 7, 100⟩ : Account).balance +
        sumDeposits [LedgerOp.dep 50, LedgerOp.wd 30] -
        sumWithdrawals [LedgerOp.dep 50, LedgerOp.wd 30] :=
  ledger_balance_sum 1 [LedgerOp.dep 50, LedgerOp.wd 30] ⟨[(1, ⟨1, 7, 100⟩)], 2⟩
    ⟨1, 7, 100⟩ rfl
    (by norm_num [runLedgerOps, applyLedgerOp, AccountManager.deposit,
      AccountManager.withdraw, alookup, updEntry])

/-- C5 (code bug evidence): the eviction the claim expects can never be
observed, because the only route to it deadlocks.  On the faithful
mutex-aware model with capacity 2, the first two touches fill the cache
with accounts 1 and 2; the third distinct touch — the one that should
evict account 1 — finds the cache at capacity, re-enters
`replace_page` under the already-held mutex and never completes
(`none`), so the touch never returns and account 1 is never evicted. -/
theorem cache_eviction_touch_deadlocks :
    touchAllLocked (initMM 2) [(1, 5), (2, 6)] =
      some ⟨[⟨1, 5⟩, ⟨2, 6⟩], 2⟩ ∧
    touchAllLocked (initMM 2) [(1, 5), (2, 6), (3, 7)] = none := by decide

theorem chanRun_delivered_append_queue (ops : List ChanOp) : ∀ s : ChanState,
    (chanRun s ops).delivered ++ (chanRun s ops).queue =
      s.delivered ++ (s.queue ++ sentOf ops) := by
  induction ops with
  | nil => intro s; simp [chanRun, sentOf]
  | cons op rest ih =>
    intro s
    cases op with
    | send m =>
      have h := ih (chanStep s (.send m))
      simp only [chanRun, List.foldl_cons] at h ⊢
      rw [h]
      simp [chanStep, sentOf]
    | recv =>
      have h := ih (chanStep s .recv)
      simp only [chanRun, List.foldl_cons] at h ⊢
      rw [h]
      cases hq : s.queue with
      | nil => simp [chanStep, hq, sentOf]
      | cons m q' => simp [chanStep, hq, sentOf]

/-- C8: the notification channel loses, duplicates and reorders
nothing.  Over any interleaving of `send_message` calls and completed
`receive_message` calls (a blocking receive completes only once the
queue is non-empty; publishes may precede every receive), the messages
returned by the receives followed by the messages still queued are
exactly the published messages in publish order — so each published
message is returned by exactly one receive, in FIFO order. -/
theorem channel_fifo_exactly_once (ops : List ChanOp) :
    (chanRun ⟨[], []⟩ ops).delivered ++ (chanRun ⟨[], []⟩ ops).queue = sentOf ops := by
  simpa using chanRun_delivered_append_queue ops ⟨[], []⟩

theorem AMInv_runOp (s : AMState) (op : SysOp) (h : AMInv s) :
    AMInv (SCI.runOp s op) := by
  obtain ⟨hnext, hmem⟩ := h
  cases op with
  | createAccount cid b =>
    by_cases hb : b < 0
    · simp only [SCI.runOp, SCI.create_account, if_pos hb]
      exact ⟨hnext, hmem⟩
    · simp only [SCI.runOp, SCI.create_account, if_neg hb, AccountManager.add_account]
      refine ⟨by show 1 ≤ s.next_account_id + 1; omega, ?_⟩
      intro p hp
      rcases List.mem_append.mp hp with hp | hp
      · obtain ⟨h1, h2, h3, h4⟩ := hmem p hp
        exact ⟨h1, h2, by show p.1 < s.next_account_id + 1; omega, h4⟩
      · simp only [List.mem_singleton] at hp
        subst hp
        exact ⟨rfl, hnext,
          by show s.next_account_id < s.next_account_id + 1; omega, not_lt.mp hb⟩
  | depositOp id q =>
    cases hl : alookup s.accounts id with
    | none =>
      simp only [SCI.runOp, SCI.deposit, ErrorHandler.validate_account_id,
        AccountManager.get_account, hl, sentinelAccount]
      simp
      exact ⟨hnext, hmem⟩
    | some a =>
      have hamem := alookup_mem _ _ _ hl
      obtain ⟨ha1, ha2, ha3, ha4⟩ := hmem _ hamem
      have hga : AccountManager.get_account s id = a := by
        simp [AccountManager.get_account, hl]
      have hvalid : ErrorHandler.validate_account_id s id = true := by
        simp only [ErrorHandler.validate_account_id, hga]
        rw [if_neg]
        intro hcon
        rw [ha1] at hcon
        omega
      by_cases hq : q ≤ 0
      · simp only [SCI.runOp, SCI.deposit, hvalid, ErrorHandler.validate_amount,
          if_pos hq]
        simp
        exact ⟨hnext, hmem⟩
      · have hstate : SCI.runOp s (.depositOp id q) =
            (AccountManager.deposit s id q).2 := by
          simp [SCI.runOp, SCI.deposit, hvalid, ErrorHandler.validate_amount, hq]
        rw [hstate]
        simp only [AccountManager.deposit, hl]
        refine ⟨hnext, ?_⟩
        intro p hp
        obtain ⟨p₀, hp₀, hpe⟩ := mem_updEntry _ _ _ _
          (show p ∈ updEntry s.accounts id
            (fun b => { b with balance := a.balance + q }) from hp)
        obtain ⟨h1, h2, h3, h4⟩ := hmem p₀ hp₀
        by_cases hk : p₀.1 = id
        · rw [if_pos hk] at hpe
          subst hpe
          refine ⟨h1, h2, h3, ?_⟩
          have hq' := not_le.mp hq
          show 0 ≤ a.balance + q
          linarith
        · rw [if_neg hk] at hpe
          subst hpe
          exact ⟨h1, h2, h3, h4⟩
  | withdrawOp id q =>
    cases hl : alookup s.accounts id with
    | none =>
      simp only [SCI.runOp, SCI.withdraw, ErrorHandler.validate_account_id,
        AccountManager.get_account, hl, sentinelAccount]
      simp
      exact ⟨hnext, hmem⟩
    | some a =>
      have hamem := alookup_mem _ _ _ hl
      obtain ⟨ha1, ha2, ha3, ha4⟩ := hmem _ hamem
      have hga : AccountManager.get_account s id = a := by
        simp [AccountManager.get_account, hl]
      have hvalid : ErrorHandler.validate_account_id s id = true := by
        simp only [ErrorHandler.validate_account_id, hga]
        rw [if_neg]
        intro hcon
        rw [ha1] at hcon
        omega
      by_cases hq : q ≤ 0
      · simp only [SCI.runOp, SCI.withdraw, hvalid, ErrorHandler.validate_amount,
          if_pos hq]
        simp
        exact ⟨hnext, hmem⟩
      · have hstate : SCI.runOp s (.withdrawOp id q) =
            (AccountManager.withdraw s id q).2 := by
          simp [SCI.runOp, SCI.withdraw, hvalid, ErrorHandler.validate_amount, hq]
        rw [hstate]
        simp only [AccountManager.withdraw, hl]
        by_cases hle : q ≤ a.balance
        · rw [if_pos hle]
          refine ⟨hnext, ?_⟩
          intro p hp
          obtain ⟨p₀, hp₀, hpe⟩ := mem_updEntry _ _ _ _
            (show p ∈ updEntry s.accounts id
              (fun b => { b with balance := a.balance - q }) from hp)
          obtain ⟨h1, h2, h3, h4⟩ := hmem p₀ hp₀
          by_cases hk : p₀.1 = id
          · rw [if_pos hk] at hpe
            subst hpe
            refine ⟨h1, h2, h3, ?_⟩
            show 0 ≤ a.balance - q
            linarith
          · rw [if_neg hk] at hpe
            subst hpe
            exact ⟨h1, h2, h3, h4⟩
        · rw [if_neg hle]
          exact ⟨hnext, hmem⟩

theorem AMInv_runOps (ops : List SysOp) : AMInv (SCI.runOps initialAMState ops) := by
  have hstep : ∀ s, AMInv s → AMInv (SCI.runOps s ops) := by
    induction ops with
    | nil => intro s hs; exact hs
    | cons op rest ih =>
      intro s hs
      exact ih _ (AMInv_runOp s op hs)
  refine hstep _ ⟨?_, ?_⟩
  · simp [initialAMState]
  · intro p hp
    simp [initialAMState] at hp

/-- C10: for every ledger state reachable through the public interface,
the public balance query returns the sentinel `-1.0` exactly for
nonexistent accounts, and `get_account` returns a record with
`account_id = -1` exactly for nonexistent accounts — the sentinel is
unambiguous because every reachable stored balance is non-negative and
every stored id is at least 1. -/
theorem missing_account_sentinel (ops : List SysOp) (account_id : Int) :
    ((SCI.check_balance (SCI.runOps initialAMState ops) account_id = -1) ↔
      alookup (SCI.runOps initialAMState ops).accounts account_id = none) ∧
    (((AccountManager.get_account (SCI.runOps initialAMState ops)
        account_id).account_id = -1) ↔
      alookup (SCI.runOps initialAMState ops).accounts account_id = none) := by
  obtain ⟨hnext, hmem⟩ := AMInv_runOps ops
  set s := SCI.runOps initialAMState ops with hs
  cases hl : alookup s.accounts account_id with
  | none =>
    have hcb : SCI.check_balance s account_id = -1 := by
      simp [SCI.check_balance, ErrorHandler.validate_account_id,
        AccountManager.get_account, hl, sentinelAccount]
    have hga : (AccountManager.get_account s account_id).account_id = -1 := by
      simp [AccountManager.get_account, hl, sentinelAccount]
    exact ⟨iff_of_true hcb rfl, iff_of_true hga rfl⟩
  | some a =>
    have hamem := alookup_mem _ _ _ hl
    obtain ⟨ha1, ha2, ha3, ha4⟩ := hmem _ hamem
    have hga : AccountManager.get_account s account_id = a := by
      simp [AccountManager.get_account, hl]
    have hvalid : ErrorHandler.validate_account_id s account_id = true := by
      simp only [ErrorHandler.validate_account_id, hga]
      rw [if_neg]
      intro hcon
      rw [ha1] at hcon
      omega
    have hcb : SCI.check_balance s account_id = a.balance := by
      simp [SCI.check_balance, hvalid, AccountManager.check_balance, hl]
    refine ⟨iff_of_false ?_ (by simp), iff_of_false ?_ (by simp)⟩
    · rw [hcb]
      intro hcon
      rw [hcon] at ha4
      norm_num at ha4
    · rw [hga, ha1]
      intro hcon
      omega

theorem update_process_state_isSome (tbl : List (Int × String)) (tid k : Int)
    (st : String) :
    (alookup (update_process_state tbl tid st) k).isSome = (alookup tbl k).isSome := by
  unfold update_process_state
  split
  · exact alookup_isSome_updEntry tbl tid k _
  · rfl

theorem update_process_state_self (tbl : List (Int × String)) (tid : Int) (st : String)
    (h : (alookup tbl tid).isSome = true) :
    alookup (update_process_state tbl tid st) tid = some st := by
  unfold update_process_state
  rw [if_pos h, alookup_updEntry_self]
  cases hl : alookup tbl tid with
  | none => rw [hl] at h; simp at h
  | some v => simp

theorem update_process_state_ne (tbl : List (Int × String)) (tid k : Int) (st : String)
    (h : k ≠ tid) :
    alookup (update_process_state tbl tid st) k = alookup tbl k := by
  unfold update_process_state
  split
  · exact alookup_updEntry_ne tbl tid k _ h
  · rfl

theorem schedRunFrom_queue_empty (queue : List Int) : ∀ tbl g,
    (schedRunFrom queue tbl g).ready_queue = [] := by
  induction queue with
  | nil => intro tbl g; rfl
  | cons t rest ih => intro tbl g; exact ih _ _

theorem schedRunFrom_gantt_fifo (queue : List Int) : ∀ tbl g,
    (schedRunFrom queue tbl g).gantt =
      g ++ queue.map (fun tid => (tid, "Running")) := by
  induction queue with
  | nil => intro tbl g; simp [schedRunFrom]
  | cons t rest ih =>
    intro tbl g
    show (schedRunFrom rest _ (g ++ [(t, "Running")])).gantt = _
    rw [ih]
    simp

theorem schedRunFrom_table_not_mem (queue : List Int) : ∀ tbl g (tid : Int),
    tid ∉ queue →
    alookup (schedRunFrom queue tbl g).table tid = alookup tbl tid := by
  induction queue with
  | nil => intro tbl g tid _; rfl
  | cons t rest ih =>
    intro tbl g tid hnm
    have hne : tid ≠ t := fun h => hnm (h ▸ List.mem_cons_self t rest)
    have hnr : tid ∉ rest := fun h => hnm (List.mem_cons_of_mem t h)
    show alookup (schedRunFrom rest _ _).table tid = _
    rw [ih _ _ _ hnr, update_process_state_ne _ _ _ _ hne,
      update_process_state_ne _ _ _ _ hne]

theorem schedRunFrom_table_mem (queue : List Int) : ∀ tbl g (tid : Int),
    tid ∈ queue → (alookup tbl tid).isSome = true →
    alookup (schedRunFrom queue tbl g).table tid = some "Terminated" := by
  induction queue with
  | nil => intro tbl g tid hmem _; exact absurd hmem (List.not_mem_nil tid)
  | cons t rest ih =>
    intro tbl g tid hmem hsome
    have hsome' : (alookup
        (update_process_state (update_process_state tbl t "Running") t "Terminated")
        tid).isSome = true := by
      rw [update_process_state_isSome, update_process_state_isSome]
      exact hsome
    by_cases hr : tid ∈ rest
    · exact ih _ _ _ hr hsome'
    · have ht : tid = t := by
        rcases List.mem_cons.mp hmem with h | h
        · exact h
        · exact absurd h hr
      subst ht
      show alookup (schedRunFrom rest _ _).table tid = _
      rw [schedRunFrom_table_not_mem rest _ _ tid hr]
      apply update_process_state_self
      rw [update_process_state_isSome]
      exact hsome

/-- C9 counterexample: the scheduler's run loop never produces a
`"Failed"` process state and records no error.  Processing the queued
transaction 1 — whatever its associated ledger operation did, since the
loop never consults the ledger — ends with its process-table state
`"Terminated"` and a `"Running"` Gantt entry, not `"Failed"`. -/
theorem scheduler_marks_terminated_not_failed :
    (schedRun ⟨[1], [(1, "Ready")], []⟩).table = [(1, "Terminated")] ∧
    (schedRun ⟨[1], [(1, "Ready")], []⟩).gantt = [(1, "Running")] ∧
    alookup (schedRun ⟨[1], [(1, "Ready")], []⟩).table 1 ≠ some "Failed" := by
  refine ⟨rfl, rfl, ?_⟩
  intro h
  simp [schedRun, schedRunFrom, update_process_state, updEntry, alookup] at h

/-- C9 amended: the run loop of `Scheduler` never consults the ledger
and has no `Failed` state; it drains the ready queue completely, marking
every dequeued (and table-present) transaction `"Running"` then
`"Terminated"`, appends one Gantt entry per request in FIFO order, and
leaves untouched only entries never dequeued — so no transaction
outcome, including a failed ledger operation performed outside the
scheduler, ever halts processing of the remaining queue. -/
theorem scheduler_never_halts_processes_all (queue : List Int)
    (tbl g : List (Int × String)) :
    (schedRunFrom queue tbl g).ready_queue = [] ∧
    (schedRunFrom queue tbl g).gantt = g ++ queue.map (fun tid => (tid, "Running")) ∧
    (∀ tid, tid ∈ queue → (alookup tbl tid).isSome = true →
      alookup (schedRunFrom queue tbl g).table tid = some "Terminated") ∧
    (∀ tid, tid ∉ queue →
      alookup (schedRunFrom queue tbl g).table tid = alookup tbl tid) :=
  ⟨schedRunFrom_queue_empty queue tbl g, schedRunFrom_gantt_fifo queue tbl g,
    fun tid hmem hsome => schedRunFrom_table_mem queue tbl g tid hmem hsome,
    fun tid hnm => schedRunFrom_table_not_mem queue tbl g tid hnm⟩

/-- C9 amended witness: a queue of two transactions is fully processed;
transaction 1 ends `"Terminated"` and transaction 5 (never queued) keeps
its `"Ready"` state. -/
theorem scheduler_never_halts_processes_all_witness :
    (schedRunFrom [1, 2] [(1, "Ready"), (2, "Ready"), (5, "Ready")] []).ready_queue
      = [] ∧
    alookup (schedRunFrom [1, 2] [(1, "Ready"), (2, "Ready"), (5, "Ready")] []).table 1
      = some "Terminated" ∧
    alookup (schedRunFrom [1, 2] [(1, "Ready"), (2, "Ready"), (5, "Ready")] []).table 5
      = alookup [(1, "Ready"), (2, "Ready"), (5, "Ready")] 5 :=
  ⟨(scheduler_never_halts_processes_all [1, 2]
      [(1, "Ready"), (2, "Ready"), (5, "Ready")] []).1,
    (scheduler_never_halts_processes_all [1, 2]
      [(1, "Ready"), (2, "Ready"), (5, "Ready")] []).2.2.1 1 (by decide) (by decide),
    (scheduler_never_halts_processes_all [1, 2]
      [(1, "Ready"), (2, "Ready"), (5, "Ready")] []).2.2.2 5 (by decide)⟩

/-- C7 amended witness: a direct deposit of `-3` into account 1
(balance 50) succeeds and lowers the balance to 47, while the wrapper
would have rejected the amount. -/
theorem deposit_skips_amount_validation_witness :
    (AccountManager.deposit ⟨[(1, ⟨1, 4, 50⟩)], 2⟩ 1 (-3)).1 = true ∧
    alookup (AccountManager.deposit ⟨[(1, ⟨1, 4, 50⟩)], 2⟩ 1 (-3)).2.accounts 1 =
      some { account_id := 1, customer_id := 4, balance := 47 } ∧
    ((-3 : Rat) ≤ 0 → ErrorHandler.validate_amount (-3) = false) := by
  have h := deposit_skips_amount_validation ⟨[(1, ⟨1, 4, 50⟩)], 2⟩ 1 (-3) ⟨1, 4, 50⟩
    (by decide)
  refine ⟨h.1, ?_, h.2.2⟩
  have h' := h.2.1
  norm_num at h'
  exact h'

end Banking
